import Mathlib

/-!
Shallow embedding of the scoreKeeper application (a browser score-tracking
utility).  The repository contains one shared table component
(`src/unnamed/part_000`, a `ScoreTable`) and three variants of the main app
(`src/App.tsx`, `src/unnamed/part_001`, `src/unnamed/part_002`); the two
unnamed variants additionally persist the ledger to browser storage with a
10-hour expiry and draw a cumulative-progression chart.

Scores are JavaScript numbers or `null`; we model a score cell as
`Option Int` (the claims under verification only involve integer scores and
list structure).  Millisecond clock readings (`Date.now()`) are modelled as
`Nat` arguments.
-/

namespace ScoreKeeper

/-- A player row: `{ id, name, scores }` from the source.  `scores` has one
slot per round; `none` models the JavaScript `null` (absent) slot. -/
structure Player where
  id : String
  name : String
  scores : List (Option Int)
deriving DecidableEq, Repr

/-- `player.scores.reduce((sum, score) => sum + (score || 0), 0)` — the total
used by the ranking (`sortedPlayers`), the table and the spreadsheet rows.
JavaScript `score || 0` yields `0` for `null` and for `0` itself, which is
exactly `Option.getD 0` here. -/
def total (p : Player) : Int :=
  p.scores.foldl (fun sum score => sum + score.getD 0) 0

/-- Spec-side description of a total: the sum of the present scores. -/
def sumPresent (scores : List (Option Int)) : Int :=
  (scores.filterMap id).sum

/-- An entry of `playerTotals` in the part_000 `ScoreTable`. -/
structure IdTotal where
  id : String
  total : Int
deriving DecidableEq, Repr

/-- part_000: `players.map(player => ({ id: player.id, total: reduce ... }))`. -/
def playerTotals (ps : List Player) : List IdTotal :=
  ps.map fun p => ⟨p.id, total p⟩

/-- part_000: `if (players.length === 0) return -1; return Math.max(...allTotals)`.
`Math.max` over a nonempty spread is the fold of binary `max`; the inner `[]`
branch is unreachable because `playerTotals` of a nonempty list is nonempty. -/
def highestScore (ps : List Player) : Int :=
  if ps.isEmpty then -1
  else
    match (playerTotals ps).map IdTotal.total with
    | [] => -1
    | t :: ts => ts.foldl max t

/-- part_000 row rendering: `playerTotals.find(p => p.id === player.id)?.total ?? 0`. -/
def tableTotal (ps : List Player) (p : Player) : Int :=
  match (playerTotals ps).find? (fun q => q.id == p.id) with
  | some q => q.total
  | none => 0

/-- part_000: `isWinner = totalScore > 0 && totalScore === highestScore`. -/
def isWinnerTable (ps : List Player) (p : Player) : Bool :=
  decide (0 < tableTotal ps p) && (tableTotal ps p == highestScore ps)

/-- All three app variants:
`[...players].sort((a, b) => totalB - totalA)`.
JavaScript `Array.prototype.sort` is specified to be stable, and a stable sort
for the total preorder `a ≼ b ↔ cmp a b ≤ 0 ↔ total b ≤ total a` has a unique
result, so the faithful model is the (stable) `List.mergeSort` with that
relation. -/
def sortedPlayers (ps : List Player) : List Player :=
  ps.mergeSort fun a b => decide (total b ≤ total a)

/-- part_001/part_002 rows are rendered from `sortedPlayers`;
`isWinner = idx === 0 && totalScore > 0` at row index `idx`. -/
def isWinnerRow002 (idx : Nat) (p : Player) : Bool :=
  (idx == 0) && decide (0 < total p)

/-- The players of `ps` whose part_001/part_002 table row carries the winner
flag (trophy / highlight): row `idx` of `sortedPlayers` with
`idx === 0 && totalScore > 0`. -/
def flagged002 (ps : List Player) : List Player :=
  (((sortedPlayers ps).enum.filter fun x => isWinnerRow002 x.1 x.2).map Prod.snd)

/-- `numRounds = players.length > 0 ? players[0].scores.length : 5`
(identical in all three app variants). -/
def numRounds (ps : List Player) : Nat :=
  match ps with
  | [] => 5
  | p :: _ => p.scores.length

/-- The id assigned to a freshly created player:
`new Date().getTime().toString()` — the decimal string of the millisecond
clock reading at the moment of the call. -/
def mkId (now : Nat) : String :=
  toString now

/-- `handleAddPlayer` (identical in all three app variants): append a player
with id `Date.now().toString()`, name `Player N` for `N = count + 1`, and
`Array(rounds).fill(null)` scores where `rounds` is the first player's scores
length, or 5 when there are no players. -/
def handleAddPlayer (now : Nat) (ps : List Player) : List Player :=
  let rounds := match ps with
    | [] => 5
    | p :: _ => p.scores.length
  ps ++ [⟨mkId now, "Player " ++ toString (ps.length + 1), List.replicate rounds none⟩]

/-- `handleRemovePlayer`: `prevPlayers.filter(p => p.id !== id)` (the
`window.confirm` gate is UI-side; this is the committed mutation). -/
def handleRemovePlayer (id : String) (ps : List Player) : List Player :=
  ps.filter fun p => !(p.id == id)

/-- `handleNameChange`: `prevPlayers.map(p => p.id === id ? {...p, name: newName} : p)`. -/
def handleNameChange (id : String) (newName : String) (ps : List Player) : List Player :=
  ps.map fun p => if p.id == id then { p with name := newName } else p

/-- `handleScoreChange`: for the matching ids, copy `scores` and assign
`newScores[roundIndex] = score`.  Callers only invoke it with
`roundIndex < numRounds` (spec §4.1 declares out-of-range a programming
error), where the JavaScript index assignment is `List.set`. -/
def handleScoreChange (id : String) (roundIndex : Nat) (score : Option Int)
    (ps : List Player) : List Player :=
  ps.map fun p =>
    if p.id == id then { p with scores := p.scores.set roundIndex score } else p

/-- `handleAddRound` of part_001/part_002: with zero players it creates the
single default player `{id: Date.now().toString(), name: "Player 1",
scores: Array(5).fill(null)}`; otherwise it appends `null` to every player's
scores. -/
def handleAddRound (now : Nat) (ps : List Player) : List Player :=
  if ps.isEmpty then [⟨mkId now, "Player 1", List.replicate 5 none⟩]
  else ps.map fun p => { p with scores := p.scores ++ [none] }

/-- `handleAddRound` of App.tsx: with zero players it only raises an alert and
returns without touching the ledger; otherwise it appends `null` to every
player's scores. -/
def handleAddRoundApp (ps : List Player) : List Player :=
  if ps.isEmpty then ps
  else ps.map fun p => { p with scores := p.scores ++ [none] }

/-- `p.scores.filter((_, i) => i !== roundIndex)` — drop the slot at a given
index, keeping everything else. -/
def removeScoreIdx (l : List (Option Int)) (i : Nat) : List (Option Int) :=
  ((l.enum.filter fun x => !(x.1 == i)).map Prod.snd)

/-- `handleRemoveRound` (identical in all three app variants): delete slot
`roundIndex` from every player's scores. -/
def handleRemoveRound (roundIndex : Nat) (ps : List Player) : List Player :=
  ps.map fun p => { p with scores := removeScoreIdx p.scores roundIndex }

/-- A ledger mutation of the part_002 app (the variant the round-count and
id-freshness claims cite), with the millisecond clock reading made explicit
for the operations that read `Date.now()`. -/
inductive Op where
  | addPlayer (now : Nat)
  | removePlayer (id : String)
  | addRound (now : Nat)
  | removeRound (i : Nat)
deriving DecidableEq, Repr

def applyOp (ps : List Player) : Op → List Player
  | .addPlayer now => handleAddPlayer now ps
  | .removePlayer id => handleRemovePlayer id ps
  | .addRound now => handleAddRound now ps
  | .removeRound i => handleRemoveRound i ps

def applyOps (ps : List Player) : List Op → List Player
  | [] => ps
  | op :: ops => applyOps (applyOp ps op) ops

/-- The side condition of the round-count claim: the trace consists of
`addPlayer`, `addRound` and `removeRound` operations only, and every
`removeRound` index satisfies `0 ≤ i < roundCount` at the moment it runs. -/
def c2Valid (ps : List Player) : List Op → Bool
  | [] => true
  | op :: ops =>
    (match op with
     | .addPlayer _ => true
     | .addRound _ => true
     | .removeRound i => decide (i < numRounds ps)
     | .removePlayer _ => false)
    && c2Valid (applyOp ps op) ops

/-- A session trace made only of `addPlayer` and `removePlayer` operations
(the scope of the id-freshness claim). -/
def onlyPlayerOps (ops : List Op) : Bool :=
  ops.all fun op =>
    match op with
    | .addPlayer _ => true
    | .removePlayer _ => true
    | _ => false

/-- The clock readings at which the `addPlayer` operations of a trace run —
each one becomes the id of the created player. -/
def addTimes (ops : List Op) : List Nat :=
  ops.filterMap fun op =>
    match op with
    | .addPlayer t => some t
    | _ => none

/-- part_001/part_002: `EXPIRY_TIME = 10 * 60 * 60 * 1000` (10 hours in
milliseconds). -/
def EXPIRY_TIME : Nat := 10 * 60 * 60 * 1000

/-- The record persisted under `STORAGE_KEY`:
`{ players, gameTitle, timestamp: Date.now() }`. -/
structure SavedData where
  players : List Player
  gameTitle : String
  timestamp : Nat
deriving DecidableEq, Repr

/-- The save effect (part_001/part_002 `useEffect`): overwrite the stored
record with `{players, gameTitle, timestamp: now}`.  The store models the
`localStorage` slot at `STORAGE_KEY` (and the JSON round-trip, which is the
identity on well-formed records). -/
def saveData (players : List Player) (gameTitle : String) (now : Nat) :
    Option SavedData :=
  some ⟨players, gameTitle, now⟩

/-- `loadSavedData` of part_001/part_002, returning the loaded value together
with the store after the call: a missing record loads as `none`; a record with
`now - timestamp < EXPIRY_TIME` is returned with the store untouched;
otherwise `localStorage.removeItem` runs and `null` is returned.
JavaScript subtraction of a future timestamp is negative, hence below the
window, and `Nat` truncated subtraction gives `0` there — the same branch. -/
def loadSavedData (now : Nat) (stored : Option SavedData) :
    Option SavedData × Option SavedData :=
  match stored with
  | some parsed =>
      if now - parsed.timestamp < EXPIRY_TIME then (some parsed, some parsed)
      else (none, none)
  | none => (none, none)

/-- `useState(initialData?.players || [])`: a `null` load yields the empty
player list (a loaded players array, even when empty, is a truthy JavaScript
value and is kept). -/
def initPlayers (loaded : Option SavedData) : List Player :=
  match loaded with
  | some d => d.players
  | none => []

/-- `useState(initialData?.gameTitle || "Score Keeper")`: a `null` load — or a
loaded empty (falsy) title — yields `"Score Keeper"`. -/
def initTitle (loaded : Option SavedData) : String :=
  match loaded with
  | some d => if d.gameTitle = "" then "Score Keeper" else d.gameTitle
  | none => "Score Keeper"

/-- part_001 `ScoreLineChart` data: `points = [{round: 0, score: 0}]` and then
`p.scores.forEach((s, rIdx) => { if (s !== null) { runningTotal += s;
points.push({round: rIdx + 1, score: runningTotal}); } })`, modelled as a left
fold over the indexed scores carrying `(runningTotal, points)`. -/
def chartPoints (scores : List (Option Int)) : List (Nat × Int) :=
  (scores.enum.foldl
    (fun acc rs =>
      match rs.2 with
      | some s => (acc.1 + s, acc.2 ++ [(rs.1 + 1, acc.1 + s)])
      | none => acc)
    ((0 : Int), [((0 : Nat), (0 : Int))])).2

/-- Modelled from the spec: the cumulative-progression point sequence — it
starts at `(0, 0)` and holds, for each 0-based round index `r` with a present
score, the pair `(r + 1, running total of the present scores up to and
including round r)`; absent rounds contribute no point. -/
def specProgressionPoints (scores : List (Option Int)) : List (Nat × Int) :=
  ((0 : Nat), (0 : Int)) ::
    scores.enum.filterMap fun rs =>
      match rs.2 with
      | some _ => some (rs.1 + 1, sumPresent (scores.take (rs.1 + 1)))
      | none => none

/-- Spec-side helper: the progression points of a scores suffix, starting at
round index `k` with running total `t`. -/
def progAux (k : Nat) (t : Int) : List (Option Int) → List (Nat × Int)
  | [] => []
  | none :: rest => progAux (k + 1) t rest
  | some s :: rest => (k + 1, t + s) :: progAux (k + 1) (t + s) rest

/-- A value stored into a score cell.  JavaScript stores `null` or a number;
`NaN` is the number produced by a failed `parseFloat`, kept separate here so
the claims can talk about it. -/
inductive JSVal where
  | null
  | num (q : ℚ)
  | nan
deriving DecidableEq, Repr

/-- Leading characters skipped by JavaScript numeric parsing (the common
whitespace characters). -/
def isJsSpace (c : Char) : Bool :=
  c == ' ' || c == '\t' || c == '\n' || c == '\r'

/-- The numeric value of a run of decimal digit characters. -/
def digitsVal (ds : List Char) : Nat :=
  ds.foldl (fun a c => 10 * a + (c.toNat - '0'.toNat)) 0

/-- `parseInt(value, 10)` on the model alphabet: skip leading whitespace, an
optional sign, then the longest run of decimal digits; `NaN` (here `none`)
when that run is empty.  Trailing characters are ignored, as in JavaScript. -/
def jsParseInt (s : String) : Option Int :=
  let cs := s.toList.dropWhile isJsSpace
  let signed : Int × List Char :=
    match cs with
    | '-' :: rest => (-1, rest)
    | '+' :: rest => (1, rest)
    | _ => (1, cs)
  let ds := signed.2.takeWhile Char.isDigit
  if ds.isEmpty then none else some (signed.1 * digitsVal ds)

/-- An optional exponent suffix `e`/`E` with optional sign; a malformed
exponent is ignored (`parseFloat("1e") = 1`). -/
def parseExpSuffix (cs : List Char) : Int :=
  match cs with
  | c :: rest =>
    if c == 'e' || c == 'E' then
      let signed : Int × List Char :=
        match rest with
        | '-' :: r => (-1, r)
        | '+' :: r => (1, r)
        | _ => (1, rest)
      let ds := signed.2.takeWhile Char.isDigit
      if ds.isEmpty then 0 else signed.1 * digitsVal ds
    else 0
  | [] => 0

/-- `parseFloat(value)` on the model alphabet: skip leading whitespace, an
optional sign, decimal digits with an optional fractional part and an optional
exponent; `NaN` (here `none`) when no digit occurs in the mantissa.  Trailing
characters are ignored, as in JavaScript.  (The special literal `Infinity` is
not modelled; no claim involves it.) -/
def jsParseFloat (s : String) : Option ℚ :=
  let cs := s.toList.dropWhile isJsSpace
  let signed : ℚ × List Char :=
    match cs with
    | '-' :: rest => (-1, rest)
    | '+' :: rest => (1, rest)
    | _ => (1, cs)
  let intDs := signed.2.takeWhile Char.isDigit
  let afterInt := signed.2.dropWhile Char.isDigit
  let fracSplit : List Char × List Char :=
    match afterInt with
    | '.' :: rest => (rest.takeWhile Char.isDigit, rest.dropWhile Char.isDigit)
    | _ => ([], afterInt)
  if intDs.isEmpty && fracSplit.1.isEmpty then none
  else
    let mantissa : ℚ :=
      (digitsVal intDs : ℚ) + (digitsVal fracSplit.1 : ℚ) / (10 : ℚ) ^ fracSplit.1.length
    some (signed.1 * mantissa * (10 : ℚ) ^ parseExpSuffix fracSplit.2)

/-- part_000 score-cell entry: `const score = parseInt(e.target.value, 10);
onScoreChange(player.id, i, isNaN(score) ? null : score)` — the value handed
to the ledger. -/
def storedScore000 (s : String) : JSVal :=
  match jsParseInt s with
  | none => JSVal.null
  | some n => JSVal.num (n : ℚ)

/-- part_001/part_002 score-cell entry: `const val = e.target.value === "" ?
null : parseFloat(e.target.value); onScoreChange(player.id, roundIdx, val)` —
a failed `parseFloat` of a non-empty string hands `NaN` to the ledger. -/
def storedScore002 (s : String) : JSVal :=
  if s = "" then JSVal.null
  else
    match jsParseFloat s with
    | none => JSVal.nan
    | some q => JSVal.num q

/-- Most-significant-digit-first decimal digit characters of a natural
number: the structural-recursion form of `Nat.toDigits 10`. -/
def decChars (n : Nat) : List Char :=
  if _h : n < 10 then [Nat.digitChar n]
  else decChars (n / 10) ++ [Nat.digitChar (n % 10)]
decreasing_by exact Nat.div_lt_self (by omega) (by omega)

end ScoreKeeper

namespace ScoreKeeper

/- Helper lemmas about totals. -/

theorem foldl_getD_eq_add_sumPresent (scores : List (Option Int)) :
    ∀ a : Int, scores.foldl (fun sum score => sum + score.getD 0) a
      = a + sumPresent scores := by
  induction scores with
  | nil => intro a; simp [sumPresent]
  | cons s rest ih =>
    intro a
    cases s with
    | none => simp [List.foldl_cons, ih, sumPresent]
    | some n => simp [List.foldl_cons, ih, sumPresent]; ring

theorem total_eq_sumPresent (p : Player) : total p = sumPresent p.scores := by
  have h := foldl_getD_eq_add_sumPresent p.scores 0
  simpa [total] using h

/-- C1: for every player, the total shown for that player — the reduction used
by the ranking, the table rows (`playerTotals`) and the spreadsheet rows —
equals the sum of the player's present scores, and an absent slot contributes
exactly zero wherever it sits in the scores sequence. -/
theorem totals_are_sum_of_present_scores
    (ps : List Player) (p : Player) (i n : String)
    (xs ys : List (Option Int)) :
    total p = (p.scores.filterMap id).sum
    ∧ playerTotals ps = ps.map (fun q => ⟨q.id, (q.scores.filterMap id).sum⟩)
    ∧ total ⟨i, n, xs ++ none :: ys⟩ = total ⟨i, n, xs ++ ys⟩ := by
  refine ⟨total_eq_sumPresent p, ?_, ?_⟩
  · unfold playerTotals
    apply List.map_congr_left
    intro q _
    rw [total_eq_sumPresent]
    rfl
  · rw [total_eq_sumPresent, total_eq_sumPresent]
    simp [sumPresent]

theorem map_eq_self_of_mem {α : Type} (l : List α) (f : α → α)
    (h : ∀ a ∈ l, f a = a) : l.map f = l := by
  induction l with
  | nil => rfl
  | cons x xs ih =>
    simp only [List.map_cons]
    rw [h x (by simp), ih fun a ha => h a (by simp [ha])]

/-- C10: `setScore` and `renamePlayer` with an id matching no player leave the
players list unchanged — the `map` keeps every element as it is. -/
theorem unknown_id_mutations_are_noops
    (ps : List Player) (id newName : String) (r : Nat) (v : Option Int)
    (h : ∀ p ∈ ps, p.id ≠ id) :
    handleNameChange id newName ps = ps ∧ handleScoreChange id r v ps = ps := by
  constructor
  · apply map_eq_self_of_mem
    intro p hp
    rw [if_neg]
    simp only [beq_iff_eq]
    exact h p hp
  · apply map_eq_self_of_mem
    intro p hp
    rw [if_neg]
    simp only [beq_iff_eq]
    exact h p hp

theorem unknown_id_mutations_are_noops_witness :
    handleNameChange "b" "x" [⟨"a", "A", [some 1]⟩] = [⟨"a", "A", [some 1]⟩]
    ∧ handleScoreChange "b" 0 (some 9) [⟨"a", "A", [some 1]⟩] = [⟨"a", "A", [some 1]⟩] :=
  unknown_id_mutations_are_noops [⟨"a", "A", [some 1]⟩] "b" "x" 0 (some 9)
    (by decide)

/-- C6, counterexample: in the App.tsx variant, `handleAddRound` on a ledger
with zero players returns without creating any player (it only raises an
alert), so no default player with 5 absent slots appears. -/
theorem addRound_bootstrap_counterexample :
    handleAddRoundApp [] = [] ∧ (handleAddRoundApp []).length ≠ 1 :=
  ⟨rfl, by decide⟩

/-- C6 as amended: in the part_001/part_002 variants `addRound` on an empty
ledger creates exactly one default player with 5 absent slots (round count 5),
while in the App.tsx variant it leaves the empty ledger unchanged; in every
variant, with at least one player it appends exactly one absent slot to every
player's scores and increases the round count by 1. -/
theorem addRound_amended (now : Nat) (ps : List Player) (h : ps ≠ []) :
    handleAddRound now [] = [⟨mkId now, "Player 1", List.replicate 5 none⟩]
    ∧ numRounds (handleAddRound now []) = 5
    ∧ handleAddRoundApp [] = []
    ∧ handleAddRound now ps = ps.map (fun p => { p with scores := p.scores ++ [none] })
    ∧ handleAddRoundApp ps = ps.map (fun p => { p with scores := p.scores ++ [none] })
    ∧ numRounds (handleAddRound now ps) = numRounds ps + 1 := by
  refine ⟨rfl, rfl, rfl, ?_, ?_, ?_⟩
  · rw [handleAddRound, if_neg (by simpa [List.isEmpty_iff] using h)]
  · rw [handleAddRoundApp, if_neg (by simpa [List.isEmpty_iff] using h)]
  · match ps with
    | [] => exact absurd rfl h
    | p :: rest =>
      rw [handleAddRound]
      simp [numRounds]

theorem addRound_amended_witness :
    handleAddRound 3 [] = [⟨mkId 3, "Player 1", List.replicate 5 none⟩]
    ∧ numRounds (handleAddRound 3 [⟨"1", "P", [none, none]⟩]) =
        numRounds [⟨"1", "P", [none, none]⟩] + 1 :=
  ⟨(addRound_amended 3 [⟨"1", "P", [none, none]⟩] (by decide)).1,
   (addRound_amended 3 [⟨"1", "P", [none, none]⟩] (by decide)).2.2.2.2.2⟩

/-- C3: a snapshot saved at time `t` and loaded at time `now` is returned
unchanged, with the store untouched, whenever `now - t` is strictly below the
36,000,000 ms expiry window; when `now - t` is at or past the window the
stored record is deleted and the load yields the empty default (empty player
list, title `"Score Keeper"`). -/
theorem persistence_roundtrip_expiry
    (players : List Player) (title : String) (t now : Nat) :
    (now - t < EXPIRY_TIME →
      loadSavedData now (saveData players title t)
        = (some ⟨players, title, t⟩, some ⟨players, title, t⟩))
    ∧ (EXPIRY_TIME ≤ now - t →
      loadSavedData now (saveData players title t) = (none, none)
      ∧ initPlayers (loadSavedData now (saveData players title t)).1 = []
      ∧ initTitle (loadSavedData now (saveData players title t)).1 = "Score Keeper") := by
  constructor
  · intro h
    rw [saveData, loadSavedData]
    simp only [if_pos h]
  · intro h
    rw [saveData, loadSavedData]
    rw [if_neg (by omega : ¬ now - t < EXPIRY_TIME)]
    exact ⟨rfl, rfl, rfl⟩

theorem persistence_roundtrip_expiry_witness :
    loadSavedData (EXPIRY_TIME + 1) (saveData [] "g" 2)
      = (some ⟨[], "g", 2⟩, some ⟨[], "g", 2⟩)
    ∧ loadSavedData (EXPIRY_TIME + 1) (saveData [] "g" 0) = (none, none) :=
  ⟨(persistence_roundtrip_expiry [] "g" 2 (EXPIRY_TIME + 1)).1 (by decide),
   ((persistence_roundtrip_expiry [] "g" 0 (EXPIRY_TIME + 1)).2 (by decide)).1⟩

theorem enumFrom_filter_ne_big (l : List (Option Int)) :
    ∀ (m k : Nat), k < m →
      ((List.enumFrom m l).filter fun x => !(x.1 == k)).map Prod.snd = l := by
  induction l with
  | nil => intro m k _; rfl
  | cons x rest ih =>
    intro m k hk
    show ((((m, x) :: List.enumFrom (m + 1) rest).filter
      fun x => !(x.1 == k)).map Prod.snd) = x :: rest
    rw [List.filter_cons]
    have hne : (!(m == k)) = true := by
      simp only [Bool.not_eq_true', beq_eq_false_iff_ne]
      omega
    rw [if_pos hne, List.map_cons, ih (m + 1) k (by omega)]

theorem enumFrom_filter_erase (l : List (Option Int)) :
    ∀ (n i : Nat),
      ((List.enumFrom n l).filter fun x => !(x.1 == n + i)).map Prod.snd
        = l.eraseIdx i := by
  induction l with
  | nil => intro n i; rfl
  | cons x rest ih =>
    intro n i
    show ((((n, x) :: List.enumFrom (n + 1) rest).filter
      fun x => !(x.1 == n + i)).map Prod.snd) = (x :: rest).eraseIdx i
    rw [List.filter_cons]
    match i with
    | 0 =>
      have hbe : (!(n == n + 0)) = false := by simp
      rw [if_neg (by simp [hbe]), List.eraseIdx_cons_zero]
      exact enumFrom_filter_ne_big rest (n + 1) n (by omega)
    | j + 1 =>
      have hbe : (!(n == n + (j + 1))) = true := by
        simp only [Bool.not_eq_true', beq_eq_false_iff_ne]
        omega
      rw [if_pos hbe, List.map_cons, List.eraseIdx_cons_succ]
      have : n + (j + 1) = (n + 1) + j := by omega
      rw [this, ih (n + 1) j]

theorem removeScoreIdx_eq_eraseIdx (l : List (Option Int)) (i : Nat) :
    removeScoreIdx l i = l.eraseIdx i := by
  have h := enumFrom_filter_erase l 0 i
  simpa [removeScoreIdx, List.enum] using h

/-- The I1 ledger invariant: every player's scores list has length equal to
the derived round count. -/
def ledgerInv (ps : List Player) : Prop :=
  ∀ p ∈ ps, p.scores.length = numRounds ps

theorem numRounds_cons (p : Player) (rest : List Player) :
    numRounds (p :: rest) = p.scores.length := rfl

theorem ledgerInv_applyOp (ps : List Player) (op : Op) (h : ledgerInv ps) :
    ledgerInv (applyOp ps op) := by
  match op with
  | .addPlayer now =>
    show ledgerInv (handleAddPlayer now ps)
    match ps with
    | [] =>
      intro p hp
      simp only [handleAddPlayer, List.nil_append, List.mem_singleton] at hp
      subst hp
      simp [handleAddPlayer, numRounds]
    | q :: rest =>
      intro p hp
      simp only [handleAddPlayer, List.mem_append, List.mem_singleton] at hp
      have hlen : numRounds (handleAddPlayer now (q :: rest)) = q.scores.length := rfl
      rw [hlen]
      rcases hp with hp | hp
      · exact h p hp
      · subst hp; simp
  | .removePlayer id =>
    show ledgerInv (handleRemovePlayer id ps)
    intro p hp
    have hmem : p ∈ ps := List.mem_of_mem_filter hp
    match hps : handleRemovePlayer id ps with
    | [] => simp [hps] at hp
    | q :: rest =>
      have hq : q ∈ ps := by
        have : q ∈ handleRemovePlayer id ps := by rw [hps]; simp
        exact List.mem_of_mem_filter this
      rw [numRounds_cons]
      rw [h p hmem, h q hq]
  | .addRound now =>
    show ledgerInv (handleAddRound now ps)
    match ps with
    | [] =>
      intro p hp
      simp only [handleAddRound, List.isEmpty_nil, if_pos, List.mem_singleton] at hp
      subst hp
      simp [handleAddRound, numRounds]
    | q :: rest =>
      intro p hp
      simp only [handleAddRound, List.isEmpty_cons, Bool.false_eq_true, if_false,
        List.map_cons] at hp ⊢
      rw [numRounds_cons]
      simp only [List.mem_cons, List.mem_map] at hp
      rcases hp with hp | ⟨r, hr, hp⟩
      · subst hp; simp
      · subst hp
        simp only [List.length_append, List.length_cons, List.length_nil]
        have hrlen := h r (by simp [hr])
        have hq := h q (by simp)
        rw [numRounds_cons] at hrlen hq
        omega
  | .removeRound i =>
    show ledgerInv (handleRemoveRound i ps)
    match ps with
    | [] => intro p hp; simp [handleRemoveRound] at hp
    | q :: rest =>
      intro p hp
      simp only [handleRemoveRound, List.map_cons] at hp ⊢
      rw [numRounds_cons]
      simp only [List.mem_cons, List.mem_map] at hp
      rcases hp with hp | ⟨r, hr, hp⟩
      · subst hp; simp
      · subst hp
        simp only [removeScoreIdx_eq_eraseIdx, List.length_eraseIdx]
        have hrlen := h r (by simp [hr])
        have hq := h q (by simp)
        rw [numRounds_cons] at hrlen hq
        rw [hrlen, hq]

theorem ledgerInv_applyOps (ops : List Op) :
    ∀ ps : List Player, ledgerInv ps → ledgerInv (applyOps ps ops) := by
  induction ops with
  | nil => intro ps h; exact h
  | cons op ops ih =>
    intro ps h
    exact ih (applyOp ps op) (ledgerInv_applyOp ps op h)

/-- C2: after any sequence of `addPlayer`, `addRound` and `removeRound`
operations starting from the empty ledger, with every `removeRound` index in
range at the moment it runs, all players' scores lists have equal length and
that common length is the ledger's derived round count. -/
theorem round_count_invariant (ops : List Op) (_h : c2Valid [] ops = true) :
    (∀ p ∈ applyOps [] ops, ∀ q ∈ applyOps [] ops,
      p.scores.length = q.scores.length)
    ∧ ∀ p ∈ applyOps [] ops, p.scores.length = numRounds (applyOps [] ops) := by
  have hinv : ledgerInv (applyOps [] ops) :=
    ledgerInv_applyOps ops [] (by intro p hp; simp at hp)
  exact ⟨fun p hp q hq => by rw [hinv p hp, hinv q hq], hinv⟩

theorem round_count_invariant_witness :
    (⟨mkId 1, "Player 1", List.replicate 5 none⟩ : Player).scores.length
      = numRounds (applyOps [] [Op.addPlayer 1, Op.addRound 2, Op.removeRound 0]) :=
  (round_count_invariant [Op.addPlayer 1, Op.addRound 2, Op.removeRound 0]
    (by decide)).2 ⟨mkId 1, "Player 1", List.replicate 5 none⟩ (by decide)

theorem sortCmp_trans (a b c : Player)
    (hab : decide (total b ≤ total a) = true)
    (hbc : decide (total c ≤ total b) = true) :
    decide (total c ≤ total a) = true := by
  simp only [decide_eq_true_eq] at *
  exact le_trans hbc hab

theorem sortCmp_total (a b : Player) :
    (decide (total b ≤ total a) || decide (total a ≤ total b)) = true := by
  simp only [Bool.or_eq_true, decide_eq_true_eq]
  exact le_total _ _

/-- C4: the displayed ranking is a stable descending sort by total — it is a
permutation of the player list, totals never increase along it, and two
players with equal totals that appear in a given relative order in the input
keep that order in the ranking. -/
theorem ranking_stable_descending (ps : List Player) :
    (sortedPlayers ps).Perm ps
    ∧ (sortedPlayers ps).Pairwise (fun a b => total b ≤ total a)
    ∧ ∀ a b : Player, total a = total b →
        [a, b].Sublist ps → [a, b].Sublist (sortedPlayers ps) := by
  refine ⟨List.mergeSort_perm ps _, ?_, ?_⟩
  · have h : (ps.mergeSort fun a b : Player => decide (total b ≤ total a)).Pairwise
        (fun a b : Player => decide (total b ≤ total a) = true) :=
      List.sorted_mergeSort sortCmp_trans sortCmp_total ps
    exact h.imp fun hab => by simpa using hab
  · intro a b hab hsub
    exact List.pair_sublist_mergeSort sortCmp_trans sortCmp_total
      (by simpa using le_of_eq hab.symm) hsub

theorem ranking_stable_descending_witness :
    [(⟨"a", "A", [some 5]⟩ : Player), ⟨"b", "B", [some 5]⟩].Sublist
      (sortedPlayers [⟨"a", "A", [some 5]⟩, ⟨"b", "B", [some 5]⟩]) :=
  (ranking_stable_descending [⟨"a", "A", [some 5]⟩, ⟨"b", "B", [some 5]⟩]).2.2
    ⟨"a", "A", [some 5]⟩ ⟨"b", "B", [some 5]⟩ (by decide) (List.Sublist.refl _)

theorem foldl_max_ge (ts : List Int) :
    ∀ t : Int, ∀ x ∈ t :: ts, x ≤ ts.foldl max t := by
  induction ts with
  | nil => intro t x hx; simp at hx; simp [hx]
  | cons u us ih =>
    intro t x hx
    rw [List.foldl_cons]
    rcases List.mem_cons.mp hx with hx | hx
    · subst hx
      exact le_trans (le_max_left _ u) (ih (max x u) _ (by simp))
    · rcases List.mem_cons.mp hx with hx | hx
      · subst hx
        exact le_trans (le_max_right t _) (ih (max t x) _ (by simp))
      · exact ih (max t u) x (by simp [hx])

theorem foldl_max_mem (ts : List Int) :
    ∀ t : Int, ts.foldl max t ∈ t :: ts := by
  induction ts with
  | nil => intro t; simp
  | cons u us ih =>
    intro t
    rw [List.foldl_cons]
    have h := ih (max t u)
    rcases List.mem_cons.mp h with h | h
    · rw [h]
      rcases max_choice t u with hm | hm <;> rw [hm] <;> simp
    · simp [h]

theorem tableTotal_eq_total (ps : List Player) (p : Player)
    (hnd : (ps.map Player.id).Nodup) (hp : p ∈ ps) :
    tableTotal ps p = total p := by
  induction ps with
  | nil => simp at hp
  | cons q rest ih =>
    rw [List.map_cons, List.nodup_cons] at hnd
    show (match (playerTotals (q :: rest)).find? (fun r => r.id == p.id) with
      | some r => r.total
      | none => 0) = total p
    rw [playerTotals, List.map_cons, List.find?]
    by_cases hqp : q.id = p.id
    · have hbeq : ((⟨q.id, total q⟩ : IdTotal).id == p.id) = true := by
        simpa using hqp
      rw [hbeq]
      rcases List.mem_cons.mp hp with hp | hp
      · rw [hp]
      · exfalso
        exact hnd.1 (hqp ▸ List.mem_map_of_mem Player.id hp)
    · have hbeq : ((⟨q.id, total q⟩ : IdTotal).id == p.id) = false := by
        simpa using hqp
      rw [hbeq]
      have hp' : p ∈ rest := by
        rcases List.mem_cons.mp hp with hp | hp
        · exact absurd (hp ▸ rfl) hqp
        · exact hp
      have := ih hnd.2 hp'
      rw [tableTotal, playerTotals] at this
      exact this

theorem highestScore_spec (ps : List Player) (p : Player) (hp : p ∈ ps) :
    total p = highestScore ps ↔ ∀ q ∈ ps, total q ≤ total p := by
  match ps with
  | [] => simp at hp
  | r :: rest =>
    have hform : highestScore (r :: rest)
        = (rest.map total).foldl max (total r) := by
      have hmap : (playerTotals (r :: rest)).map IdTotal.total
          = total r :: rest.map total := by
        rw [playerTotals, List.map_cons, List.map_cons, List.map_map]
        exact congrArg _ (List.map_congr_left fun a _ => rfl)
      rw [highestScore, hmap]
      simp
    constructor
    · intro h q hq
      rw [h, hform]
      rcases List.mem_cons.mp hq with hq | hq
      · exact foldl_max_ge _ _ _ (by simp [hq])
      · exact foldl_max_ge _ _ _
          (List.mem_cons.mpr (Or.inr (List.mem_map.mpr ⟨q, hq, rfl⟩)))
    · intro h
      have hmem := foldl_max_mem (rest.map total) (total r)
      have hle : total p ≤ highestScore (r :: rest) := by
        rw [hform]
        rcases List.mem_cons.mp hp with hp' | hp'
        · exact foldl_max_ge _ _ _ (by simp [hp'])
        · exact foldl_max_ge _ _ _
            (List.mem_cons.mpr (Or.inr (List.mem_map.mpr ⟨p, hp', rfl⟩)))
      have hge : highestScore (r :: rest) ≤ total p := by
        rw [hform]
        rcases List.mem_cons.mp hmem with hm | hm
        · rw [hm]; exact h r (by simp)
        · rcases List.mem_map.mp hm with ⟨q, hq, hqe⟩
          rw [← hqe]
          exact h q (by simp [hq])
      omega

theorem enumFrom_filter_winner_pos (l : List Player) :
    ∀ m : Nat, 0 < m →
      (List.enumFrom m l).filter (fun x => isWinnerRow002 x.1 x.2) = [] := by
  induction l with
  | nil => intro m _; rfl
  | cons x rest ih =>
    intro m hm
    show (((m, x) :: List.enumFrom (m + 1) rest).filter
      fun x => isWinnerRow002 x.1 x.2) = []
    rw [List.filter_cons]
    have hz : (m == 0) = false := by
      simp only [beq_eq_false_iff_ne]
      omega
    have hw : isWinnerRow002 m x = false := by
      rw [isWinnerRow002, hz]
      rfl
    rw [if_neg (by simp [hw]), ih (m + 1) (by omega)]

theorem flagged002_eq (ps : List Player) :
    flagged002 ps = match sortedPlayers ps with
      | [] => []
      | h :: _ => if 0 < total h then [h] else [] := by
  rw [flagged002]
  match hs : sortedPlayers ps with
  | [] => rfl
  | h :: rest =>
    show ((((0, h) :: List.enumFrom 1 rest).filter
      fun x => isWinnerRow002 x.1 x.2).map Prod.snd)
        = if 0 < total h then [h] else []
    rw [List.filter_cons]
    by_cases hpos : 0 < total h
    · have hw : isWinnerRow002 0 h = true := by
        rw [isWinnerRow002]
        simp [hpos]
      rw [if_pos (by simp [hw]), if_pos hpos,
        enumFrom_filter_winner_pos rest 1 (by omega)]
      rfl
    · have hw : isWinnerRow002 0 h = false := by
        rw [isWinnerRow002]
        simp [hpos]
      rw [if_neg (by simp [hw]), if_neg hpos,
        enumFrom_filter_winner_pos rest 1 (by omega)]
      rfl

theorem mergeSort_pair {α : Type} (le : α → α → Bool) (a b : α) :
    [a, b].mergeSort le = if le a b then [a, b] else [b, a] := by
  simp [List.mergeSort, List.merge]

/-- C5, counterexample: two players tied at the positive maximum total 5 —
the claim flags both, but in the part_001/part_002 tables only the row at
index 0 of the sorted order carries the flag, so the second tied player is
not flagged. -/
theorem winner_flag_counterexample :
    0 < total ⟨"b", "B", [some 5]⟩
    ∧ total ⟨"b", "B", [some 5]⟩
        = highestScore [⟨"a", "A", [some 5]⟩, ⟨"b", "B", [some 5]⟩]
    ∧ (⟨"b", "B", [some 5]⟩ : Player)
        ∉ flagged002 [⟨"a", "A", [some 5]⟩, ⟨"b", "B", [some 5]⟩] := by
  have hs : sortedPlayers [⟨"a", "A", [some 5]⟩, ⟨"b", "B", [some 5]⟩]
      = [⟨"a", "A", [some 5]⟩, ⟨"b", "B", [some 5]⟩] := by
    rw [sortedPlayers, mergeSort_pair]
    rfl
  have hf : flagged002 [⟨"a", "A", [some 5]⟩, ⟨"b", "B", [some 5]⟩]
      = [⟨"a", "A", [some 5]⟩] := by
    rw [flagged002, hs]
    rfl
  rw [hf]
  refine ⟨by decide, by decide, by decide⟩

/-- C5 as amended: in the part_000 table (under the program's id-uniqueness
invariant) a player is flagged as winner exactly when its total is positive
and is the maximum total, so every player tied for a positive maximum is
flagged there; in the part_001/part_002 tables the flag instead marks exactly
the first row of the sorted order when its total is positive — a player that
carries that flag does have a positive maximal total, but at most one of
several tied players is flagged. -/
theorem winner_flag_amended (ps : List Player) (p : Player)
    (hnd : (ps.map Player.id).Nodup) (hp : p ∈ ps) :
    (isWinnerTable ps p = true ↔ (0 < total p ∧ ∀ q ∈ ps, total q ≤ total p))
    ∧ (flagged002 ps = match sortedPlayers ps with
        | [] => []
        | h :: _ => if 0 < total h then [h] else [])
    ∧ ∀ r ∈ flagged002 ps, 0 < total r ∧ ∀ q ∈ ps, total q ≤ total r := by
  refine ⟨?_, flagged002_eq ps, ?_⟩
  · rw [isWinnerTable, tableTotal_eq_total ps p hnd hp]
    simp only [Bool.and_eq_true, decide_eq_true_eq, beq_iff_eq]
    constructor
    · rintro ⟨h1, h2⟩
      exact ⟨h1, (highestScore_spec ps p hp).mp h2⟩
    · rintro ⟨h1, h2⟩
      exact ⟨h1, (highestScore_spec ps p hp).mpr h2⟩
  · intro r hr
    rw [flagged002_eq ps] at hr
    match hs : sortedPlayers ps with
    | [] => rw [hs] at hr; simp at hr
    | h :: rest =>
      rw [hs] at hr
      change r ∈ (if 0 < total h then [h] else []) at hr
      by_cases hpos : 0 < total h
      · rw [if_pos hpos] at hr
        have hrh : r = h := List.mem_singleton.mp hr
        rw [hrh]
        refine ⟨hpos, fun q hq => ?_⟩
        have hq' : q ∈ h :: rest := by
          rw [← hs]
          exact ((List.mergeSort_perm ps _).mem_iff).mpr hq
        have hpw : (h :: rest).Pairwise
            (fun a b : Player => decide (total b ≤ total a) = true) := by
          rw [← hs]
          exact List.sorted_mergeSort sortCmp_trans sortCmp_total ps
        rcases List.mem_cons.mp hq' with rfl | hq'
        · exact le_refl _
        · have := List.rel_of_pairwise_cons hpw hq'
          simpa using this
      · rw [if_neg hpos] at hr
        simp at hr

theorem winner_flag_amended_witness :
    isWinnerTable [⟨"a", "A", [some 3]⟩, ⟨"b", "B", [some 7]⟩]
      ⟨"b", "B", [some 7]⟩ = true :=
  (winner_flag_amended [⟨"a", "A", [some 3]⟩, ⟨"b", "B", [some 7]⟩]
    ⟨"b", "B", [some 7]⟩ (by decide) (by decide)).1.mpr
    ⟨by decide, by decide⟩

theorem sumPresent_append_none (pre : List (Option Int)) :
    sumPresent (pre ++ [none]) = sumPresent pre := by
  simp [sumPresent]

theorem sumPresent_append_some (pre : List (Option Int)) (s : Int) :
    sumPresent (pre ++ [some s]) = sumPresent pre + s := by
  simp [sumPresent]

theorem chart_foldl_eq (l : List (Option Int)) :
    ∀ (k : Nat) (t : Int) (pts : List (Nat × Int)),
      ((List.enumFrom k l).foldl
        (fun acc rs =>
          match rs.2 with
          | some s => (acc.1 + s, acc.2 ++ [(rs.1 + 1, acc.1 + s)])
          | none => acc)
        (t, pts))
      = (t + sumPresent l, pts ++ progAux k t l) := by
  induction l with
  | nil =>
    intro k t pts
    simp [sumPresent, progAux]
  | cons x rest ih =>
    intro k t pts
    match x with
    | none =>
      show ((List.enumFrom (k + 1) rest).foldl _ (t, pts)) = _
      rw [ih (k + 1) t pts]
      have h1 : sumPresent (none :: rest) = sumPresent rest := by
        simp [sumPresent]
      rw [h1, progAux]
    | some s =>
      show ((List.enumFrom (k + 1) rest).foldl _ (t + s, pts ++ [(k + 1, t + s)])) = _
      rw [ih (k + 1) (t + s) (pts ++ [(k + 1, t + s)])]
      have h1 : sumPresent (some s :: rest) = s + sumPresent rest := by
        simp [sumPresent]
      rw [h1, progAux, Prod.mk.injEq]
      constructor
      · ring
      · simp

theorem progAux_spec (l : List (Option Int)) :
    ∀ pre : List (Option Int),
      progAux pre.length (sumPresent pre) l
        = (List.enumFrom pre.length l).filterMap fun rs =>
            match rs.2 with
            | some _ => some (rs.1 + 1, sumPresent ((pre ++ l).take (rs.1 + 1)))
            | none => none := by
  induction l with
  | nil => intro pre; rfl
  | cons x rest ih =>
    intro pre
    match x with
    | none =>
      show progAux (pre.length + 1) (sumPresent pre) rest
        = ((pre.length, (none : Option Int)) :: List.enumFrom (pre.length + 1) rest).filterMap _
      rw [List.filterMap_cons]
      have hlen : (pre ++ [none]).length = pre.length + 1 := by simp
      have h := ih (pre ++ [none])
      rw [hlen, sumPresent_append_none] at h
      rw [h]
      have hlist : pre ++ [(none : Option Int)] ++ rest = pre ++ none :: rest := by
        simp
      rw [hlist]
    | some s =>
      show (pre.length + 1, sumPresent pre + s) ::
          progAux (pre.length + 1) (sumPresent pre + s) rest
        = ((pre.length, some s) :: List.enumFrom (pre.length + 1) rest).filterMap _
      have hlen : (pre ++ [some s]).length = pre.length + 1 := by simp
      have h := ih (pre ++ [some s])
      rw [hlen, sumPresent_append_some] at h
      have hlist : pre ++ [some s] ++ rest = pre ++ some s :: rest := by simp
      have htake : (pre ++ some s :: rest).take (pre.length + 1) = pre ++ [some s] := by
        rw [← hlist]
        exact List.take_left' (by simp)
      rw [List.filterMap_cons]
      show _ = (pre.length + 1,
        sumPresent ((pre ++ some s :: rest).take (pre.length + 1))) :: _
      rw [htake, sumPresent_append_some]
      rw [hlist] at h
      rw [h]

/-- C7: the cumulative-progression point sequence built by the part_001 line
chart starts at `(0, 0)` and contains, for each 0-based round index `r` with
a present score and in increasing order of `r`, the pair `(r + 1, running
total of the present scores up to and including round r)`; rounds with absent
scores contribute no point.  For scores `[5, null, 3]` it is exactly
`[(0,0), (1,5), (3,8)]`. -/
theorem progression_points_spec (scores : List (Option Int)) :
    chartPoints scores = specProgressionPoints scores
    ∧ chartPoints [some 5, none, some 3] = [(0, 0), (1, 5), (3, 8)] := by
  constructor
  · rw [chartPoints, specProgressionPoints]
    show ((List.enumFrom 0 scores).foldl _ ((0 : Int), [((0 : Nat), (0 : Int))])).2 = _
    rw [chart_foldl_eq scores 0 0 [(0, 0)]]
    have h := progAux_spec scores []
    simp only [List.length_nil, List.nil_append] at h
    have hz : sumPresent [] = 0 := rfl
    rw [hz] at h
    show [((0 : Nat), (0 : Int))] ++ progAux 0 0 scores = _
    rw [h]
    rfl
  · rfl

/-- C8, counterexample: the part_001/part_002 score-entry path hands `NaN` —
not the absent value — to the ledger for the non-empty unparseable input
string `"abc"` (only the empty string maps to absent there). -/
theorem score_entry_counterexample :
    ("abc" : String) ≠ ""
    ∧ storedScore002 "abc" = JSVal.nan
    ∧ storedScore002 "abc" ≠ JSVal.null := by
  refine ⟨by decide, by decide, by decide⟩

/-- C8 as amended: the part_000 score-entry path (`parseInt` guarded by
`isNaN`) stores the absent value for every input whose parse fails —
the empty string included — and the parsed integer otherwise, and never hands
`NaN` to the ledger; the part_001/part_002 path stores the absent value only
for the empty string, stores the parsed number for a non-empty parseable
input, and stores `NaN` for a non-empty unparseable input. -/
theorem score_entry_parse_amended (s : String) (n : Int) :
    (jsParseInt s = none → storedScore000 s = JSVal.null)
    ∧ (jsParseInt s = some n → storedScore000 s = JSVal.num (n : ℚ))
    ∧ storedScore000 s ≠ JSVal.nan
    ∧ storedScore002 "" = JSVal.null
    ∧ (s ≠ "" → jsParseFloat s = none → storedScore002 s = JSVal.nan)
    ∧ (s ≠ "" → ∀ h : (jsParseFloat s).isSome = true,
        storedScore002 s = JSVal.num ((jsParseFloat s).get h)) := by
  refine ⟨?_, ?_, ?_, rfl, ?_, ?_⟩
  · intro h
    rw [storedScore000, h]
  · intro h
    rw [storedScore000, h]
  · cases h : jsParseInt s <;> simp [storedScore000, h]
  · intro hs h
    rw [storedScore002, if_neg hs, h]
  · intro hs h
    rw [storedScore002, if_neg hs]
    obtain ⟨q, hq⟩ := Option.isSome_iff_exists.mp h
    simp [hq]

theorem score_entry_parse_amended_witness :
    storedScore000 "abc" = JSVal.null
    ∧ storedScore000 "7" = JSVal.num ((7 : Int) : ℚ)
    ∧ storedScore002 "abc" = JSVal.nan
    ∧ storedScore002 "7" = JSVal.num ((jsParseFloat "7").get (by decide)) :=
  ⟨(score_entry_parse_amended "abc" 0).1 (by decide),
   (score_entry_parse_amended "7" 7).2.1 (by decide),
   (score_entry_parse_amended "abc" 0).2.2.2.2.1 (by decide) (by decide),
   (score_entry_parse_amended "7" 7).2.2.2.2.2 (by decide) (by decide)⟩

theorem decChars_lt (n : Nat) (h : n < 10) : decChars n = [Nat.digitChar n] := by
  rw [decChars, dif_pos h]

theorem decChars_ge (n : Nat) (h : ¬ n < 10) :
    decChars n = decChars (n / 10) ++ [Nat.digitChar (n % 10)] := by
  rw [decChars]
  rw [dif_neg h]

theorem toDigitsCore_eq_decChars :
    ∀ (f n : Nat) (acc : List Char), n < f →
      Nat.toDigitsCore 10 f n acc = decChars n ++ acc := by
  intro f
  induction f with
  | zero => intro n acc h; omega
  | succ f ih =>
    intro n acc h
    show (if n / 10 = 0 then Nat.digitChar (n % 10) :: acc
      else Nat.toDigitsCore 10 f (n / 10) (Nat.digitChar (n % 10) :: acc))
        = decChars n ++ acc
    by_cases h0 : n / 10 = 0
    · have hlt : n < 10 := by omega
      rw [if_pos h0, decChars_lt n hlt, Nat.mod_eq_of_lt hlt]
      rfl
    · have hge : ¬ n < 10 := by omega
      have hdiv : n / 10 < f := by omega
      rw [if_neg h0, decChars_ge n hge,
        ih (n / 10) (Nat.digitChar (n % 10) :: acc) hdiv,
        List.append_assoc, List.singleton_append]

theorem natRepr_eq_decChars (n : Nat) : Nat.repr n = (decChars n).asString := by
  show (Nat.toDigits 10 n).asString = _
  rw [Nat.toDigits, toDigitsCore_eq_decChars (n + 1) n [] (by omega),
    List.append_nil]

theorem digitChar_inj_lt :
    ∀ a < 10, ∀ b < 10, Nat.digitChar a = Nat.digitChar b → a = b := by
  decide

theorem decChars_ne_nil (n : Nat) : decChars n ≠ [] := by
  rw [decChars]
  split <;> simp

theorem decChars_inj (m : Nat) : ∀ n : Nat, decChars m = decChars n → m = n := by
  induction m using Nat.strong_induction_on with
  | _ m ih =>
    intro n h
    by_cases hm : m < 10 <;> by_cases hn : n < 10
    · rw [decChars_lt m hm, decChars_lt n hn] at h
      exact digitChar_inj_lt m hm n hn (by simpa using h)
    · exfalso
      rw [decChars_lt m hm, decChars_ge n hn] at h
      have hl := congrArg List.length h
      rw [List.length_append] at hl
      simp only [List.length_singleton] at hl
      have : (decChars (n / 10)).length = 0 := by omega
      exact decChars_ne_nil _ (List.length_eq_zero.mp this)
    · exfalso
      rw [decChars_ge m hm, decChars_lt n hn] at h
      have hl := congrArg List.length h
      rw [List.length_append] at hl
      simp only [List.length_singleton] at hl
      have : (decChars (m / 10)).length = 0 := by omega
      exact decChars_ne_nil _ (List.length_eq_zero.mp this)
    · rw [decChars_ge m hm, decChars_ge n hn] at h
      obtain ⟨h1, h2⟩ := List.append_inj' h (by rfl)
      have hdiv : m / 10 = n / 10 :=
        ih (m / 10) (by omega) (n / 10) h1
      have hmod : m % 10 = n % 10 :=
        digitChar_inj_lt (m % 10) (by omega) (n % 10) (by omega) (by simpa using h2)
      omega

theorem mkId_inj (a b : Nat) (h : mkId a = mkId b) : a = b := by
  have ha : mkId a = (decChars a).asString := natRepr_eq_decChars a
  have hb : mkId b = (decChars b).asString := natRepr_eq_decChars b
  rw [ha, hb] at h
  have hchars : decChars a = decChars b := by
    have hd := congrArg String.data h
    simpa [List.asString] using hd
  exact decChars_inj a b hchars

theorem addTimes_append (l1 l2 : List Op) :
    addTimes (l1 ++ l2) = addTimes l1 ++ addTimes l2 := by
  rw [addTimes, addTimes, addTimes, List.filterMap_append]

theorem addTimes_cons_addPlayer (t : Nat) (ops : List Op) :
    addTimes (Op.addPlayer t :: ops) = t :: addTimes ops := rfl

theorem onlyPlayerOps_cons (op : Op) (ops : List Op)
    (h : onlyPlayerOps (op :: ops) = true) : onlyPlayerOps ops = true := by
  rw [onlyPlayerOps, List.all_cons, Bool.and_eq_true] at h
  exact h.2

theorem applyOps_ids_sub (ops : List Op) :
    ∀ ps : List Player, onlyPlayerOps ops = true →
      ∀ x ∈ (applyOps ps ops).map Player.id,
        x ∈ ps.map Player.id ∨ x ∈ (addTimes ops).map mkId := by
  induction ops with
  | nil => intro ps _ x hx; exact Or.inl hx
  | cons op ops ih =>
    intro ps hops x hx
    match op with
    | .addPlayer t =>
      have h := ih (handleAddPlayer t ps) (onlyPlayerOps_cons _ _ hops) x hx
      rcases h with h | h
      · simp only [handleAddPlayer, List.map_append] at h
        rcases List.mem_append.mp h with h | h
        · exact Or.inl h
        · right
          rw [addTimes_cons_addPlayer, List.map_cons]
          simp only [List.map_cons, List.map_nil, List.mem_singleton] at h
          simp [h]
      · right
        rw [addTimes_cons_addPlayer, List.map_cons]
        exact List.mem_cons_of_mem _ h
    | .removePlayer i =>
      have h := ih (handleRemovePlayer i ps) (onlyPlayerOps_cons _ _ hops) x hx
      rcases h with h | h
      · left
        rcases List.mem_map.mp h with ⟨p, hp, hpe⟩
        exact List.mem_map.mpr ⟨p, List.mem_of_mem_filter hp, hpe⟩
      · exact Or.inr h
    | .addRound t =>
      rw [onlyPlayerOps, List.all_cons] at hops
      simp at hops
    | .removeRound i =>
      rw [onlyPlayerOps, List.all_cons] at hops
      simp at hops

/-- C9, counterexample: player ids are the decimal string of `Date.now()` at
the moment of the call, so two `addPlayer` calls within the same millisecond
(here time 7) assign the same id — the second assigned id does not differ
from the id already in the ledger. -/
theorem fresh_id_counterexample :
    (applyOps [] [Op.addPlayer 7, Op.addPlayer 7]).map Player.id
      = [mkId 7, mkId 7]
    ∧ ¬ ((applyOps [] [Op.addPlayer 7, Op.addPlayer 7]).map Player.id).Nodup :=
  ⟨rfl, by decide⟩

/-- C9 as amended: across any session trace of `addPlayer` and `removePlayer`
operations, an id assigned by `addPlayer` differs from the id of every player
currently in the ledger and from every id previously assigned, provided the
millisecond clock readings of the `addPlayer` calls are pairwise distinct
(the code takes the clock reading itself as the id, so two calls inside one
millisecond violate freshness — see the counterexample). -/
theorem fresh_id_amended (pre post : List Op) (t : Nat)
    (hops : onlyPlayerOps (pre ++ Op.addPlayer t :: post) = true)
    (hnd : (addTimes (pre ++ Op.addPlayer t :: post)).Nodup) :
    mkId t ∉ (applyOps [] pre).map Player.id
    ∧ mkId t ∉ (addTimes pre).map mkId := by
  have hsplit : addTimes (pre ++ Op.addPlayer t :: post)
      = addTimes pre ++ t :: addTimes post := by
    rw [addTimes_append, addTimes_cons_addPlayer]
  rw [hsplit] at hnd
  have htpre : t ∉ addTimes pre := by
    rcases List.nodup_append.mp hnd with ⟨_, _, hdisj⟩
    intro hmem
    exact hdisj hmem (by simp)
  have h2 : mkId t ∉ (addTimes pre).map mkId := by
    intro hmem
    rcases List.mem_map.mp hmem with ⟨s, hs, hse⟩
    exact htpre (mkId_inj s t hse ▸ hs)
  refine ⟨?_, h2⟩
  intro hmem
  have hops' : onlyPlayerOps pre = true := by
    rw [onlyPlayerOps, List.all_append, Bool.and_eq_true] at hops
    rw [onlyPlayerOps]
    exact hops.1
  rcases applyOps_ids_sub pre [] hops' (mkId t) hmem with h | h
  · simp at h
  · exact h2 h

theorem fresh_id_amended_witness :
    mkId 2 ∉ (applyOps [] [Op.addPlayer 1]).map Player.id :=
  (fresh_id_amended [Op.addPlayer 1] [] 2 (by decide) (by decide)).1

end ScoreKeeper
